import Mathlib

/- Verification of the async-trace lineage tracker (src/async_trace/tracer.py).
   The registry / dispatch store / walker / assembler of `collect_async_trace`
   are embedded as executable Lean definitions over explicit state. -/

namespace AsyncTrace

/-- A scheduled asyncio task as the tracer observes it: an opaque identity,
the display name returned by `get_name()`, and the `done()` flag. -/
structure Task where
  id : Nat
  name : String
  is_done : Bool
deriving DecidableEq

/-- One entry of a captured call trace (`traceback` frame summary): function
name, line number, source text of the line, and file path. -/
structure CallFrame where
  name : String
  line : Nat
  code : String
  filename : String
deriving DecidableEq

/-- The creation record written by `_traced_create_task` into `_task_parents`:
parent task, filtered user-code call trace, readable stack text. -/
structure CreationRecord where
  parent : Option Task
  call_trace : List CallFrame
  stack : List String
deriving DecidableEq

/-- The dispatch record stored in `_executor_contexts` by the traced
`run_in_executor` wrapper: dispatching task, call trace at dispatch time,
and the dispatched callable's name. -/
structure ExecutorInfo where
  parent : Option Task
  call_trace : List CallFrame
  func_name : String
deriving DecidableEq

/-- One frame of the flat output list built by `collect_async_trace`. -/
structure OutFrame where
  name : String
  line : Option Nat
  filename : Option String
  indent : Nat
  task : Option Task
  is_executor : Bool
deriving DecidableEq

/-- The dict returned by `collect_async_trace`. -/
structure TraceResult where
  frames : List OutFrame
  current_task : Option Task
  in_executor : Bool
deriving DecidableEq

/-- The `_task_parents` registry: task identity to creation record. -/
abbrev Registry := List (Task × CreationRecord)

/-- The `_executor_contexts` store: worker thread id to dispatch record. -/
abbrev CtxStore := List (Nat × ExecutorInfo)

/-- `_task_parents.get(task)`. -/
def lookupRecord (reg : Registry) (t : Task) : Option CreationRecord :=
  (reg.find? fun p => decide (p.1 = t)).map (·.2)

/-- `_executor_contexts.get(thread_id)`. -/
def lookupCtx (m : CtxStore) (k : Nat) : Option ExecutorInfo :=
  (m.find? fun p => decide (p.1 = k)).map (·.2)

/-- `_executor_contexts.pop(thread_id, None)`: removal of a dict key. -/
def ctxErase (m : CtxStore) (k : Nat) : CtxStore :=
  m.filter fun p => decide (p.1 ≠ k)

/-- `_executor_contexts[thread_id] = executor_info`: dict assignment. -/
def ctxSet (m : CtxStore) (k : Nat) (v : ExecutorInfo) : CtxStore :=
  (k, v) :: ctxErase m k

/-- The `traced_func` wrapper created inside the traced `run_in_executor`:
it stores the dispatch record under the worker's thread id, runs the
callable (whose outcome — normal return or raised exception — is the
`outcome` argument), and pops the record in a `finally` block, so the pop
happens on both exit paths and the outcome is propagated unchanged. -/
def traced_func {α : Type} (m : CtxStore) (tid : Nat) (einfo : ExecutorInfo)
    (outcome : Except String α) : Except String α × CtxStore :=
  let m1 := ctxSet m tid einfo
  (outcome, ctxErase m1 tid)

/-- Python's `str.endswith(suffix)` on file paths. -/
def strEndsWith (s suffix : String) : Bool :=
  decide (s.data.drop (s.data.length - suffix.data.length) = suffix.data)

/-- A frame-summary is skipped when its name is in the internal-name list or
its filename ends with one of the runtime-file suffixes. -/
def isSkipped (names sufs : List String) (f : CallFrame) : Bool :=
  names.any (fun n => decide (f.name = n)) || sufs.any (fun s => strEndsWith f.filename s)

/-- Names skipped from the live stack inside an executor thread. -/
def executorSkipNames : List String :=
  ["collect_async_trace", "print_async_trace", "print_trace",
   "traced_func", "wrapper", "_traced_run_in_executor"]

/-- Filename suffixes skipped from the live stack inside an executor thread. -/
def executorSkipSuffixes : List String :=
  ["tracer.py", "asyncio/tasks.py", "asyncio/base_events.py",
   "concurrent/futures/thread.py", "threading.py"]

/-- Names skipped from the live stack in the async-task branch. -/
def asyncSkipNames : List String :=
  ["collect_async_trace", "print_async_trace", "print_trace"]

/-- Filename suffixes skipped from the live stack in the async-task branch. -/
def asyncSkipSuffixes : List String :=
  ["tracer.py", "asyncio/tasks.py", "asyncio/base_events.py"]

/-- Live-stack filtering in the executor branch of `collect_async_trace`. -/
def executorResidue (stack : List CallFrame) : List CallFrame :=
  stack.filter fun f => !(isSkipped executorSkipNames executorSkipSuffixes f)

/-- Does a live-stack frame match some creation-trace entry by name + line? -/
def matchesAny (ct : List CallFrame) (f : CallFrame) : Bool :=
  ct.any fun tf => decide (f.name = tf.name) && decide (f.line = tf.line)

/-- `max(creation_frame_indices)` (as an `Option`, `none` standing for the
Python `-1` default): the greatest live-stack index whose frame matches some
creation-trace entry by name + line, scanning from index `i`. -/
def maxMatchIdx (ct : List CallFrame) : List CallFrame → Nat → Option Nat
  | [], _ => none
  | f :: rest, i =>
    let r := maxMatchIdx ct rest (i + 1)
    if matchesAny ct f then
      match r with
      | none => some i
      | some m => some (max i m)
    else r

/-- `i <= max_creation_idx` is the skip condition; frames are kept when the
index is strictly past the cutoff (everything, when there was no match). -/
def keepAfter (cutoff : Option Nat) (i : Nat) : Bool :=
  match cutoff with
  | none => true
  | some m => decide (m < i)

/-- The index-aware filter of the async branch: drop frames at or before the
cutoff, then drop tracer-internal and runtime frames. -/
def residueFrom (cutoff : Option Nat) : List CallFrame → Nat → List CallFrame
  | [], _ => []
  | f :: rest, i =>
    if keepAfter cutoff i && !(isSkipped asyncSkipNames asyncSkipSuffixes f) then
      f :: residueFrom cutoff rest (i + 1)
    else
      residueFrom cutoff rest (i + 1)

/-- The creation call trace of the current task
(`_task_parents.get(current_task, {}).get("call_trace", [])`). -/
def creationTrace (reg : Registry) (ct : Option Task) : List CallFrame :=
  match ct with
  | none => []
  | some t =>
    match lookupRecord reg t with
    | some r => r.call_trace
    | none => []

/-- The live-stack residue of the async branch: trim everything at or before
the maximal creation-trace match, then filter internal frames. -/
def asyncResidue (reg : Registry) (ct : Option Task) (stack : List CallFrame) :
    List CallFrame :=
  residueFrom (maxMatchIdx (creationTrace reg ct) stack 0) stack 0

/-- One entry of the walked task chain (`task_data` in the source). -/
structure TaskData where
  task : Task
  name : String
  is_current : Bool
  is_done : Bool
  parent : Option Task
  call_trace : List CallFrame
  creation_stack : List String
deriving DecidableEq

/-- The `task_data` dict built for one task of the chain. -/
def mkTaskData (reg : Registry) (cT : Option Task) (t : Task) : TaskData :=
  let rcd := lookupRecord reg t
  { task := t
    name := t.name
    is_current := decide (some t = cT)
    is_done := t.is_done
    parent := match rcd with | some r => r.parent | none => none
    call_trace := match rcd with | some r => r.call_trace | none => []
    creation_stack := match rcd with | some r => r.stack | none => [] }

/-- The chain-building `while` loop of `collect_async_trace`: follow recorded
parents, inserting each `task_data` at the front (root-first order), with a
visited set as cycle guard. The `fuel` argument bounds the iteration count;
`collect_async_trace` supplies fuel that provably suffices. -/
def walkChain (reg : Registry) (cT : Option Task) :
    Nat → Option Task → List Task → List TaskData
  | 0, _, _ => []
  | _ + 1, none, _ => []
  | fuel + 1, some t, visited =>
    if t ∈ visited then []
    else
      let td := mkTaskData reg cT t
      walkChain reg cT fuel td.parent (t :: visited) ++ [td]

/-- A plain (non-boundary) output frame built from a call-trace or live-stack
frame summary. -/
def mkStackFrame (f : CallFrame) (ind : Nat) : OutFrame :=
  { name := f.name, line := some f.line, filename := some f.filename,
    indent := ind, task := none, is_executor := false }

/-- Output frames for a run of live-stack (or non-boundary call-trace)
frames, at consecutive indents. -/
def stackFrames : List CallFrame → Nat → List OutFrame
  | [], _ => []
  | f :: rest, ind => mkStackFrame f ind :: stackFrames rest (ind + 1)

/-- Output frames for the dispatch-time call trace; a frame is flagged
`is_executor` when it equals (by value) the last entry of that trace. -/
def executorFramesAux (lastF : Option CallFrame) :
    List CallFrame → Nat → List OutFrame
  | [], _ => []
  | tf :: rest, ind =>
    { name := tf.name, line := some tf.line, filename := some tf.filename,
      indent := ind, task := none,
      is_executor := decide (some tf = lastF) } ::
    executorFramesAux lastF rest (ind + 1)

/-- The dispatch-time call-trace frames of the executor branch. -/
def executorFrames (e : ExecutorInfo) (ind : Nat) : List OutFrame :=
  executorFramesAux e.call_trace.getLast? e.call_trace ind

/-- The frames appended after the current task's boundary: in an executor
thread, the dispatch call trace followed by the executor-thread live stack;
otherwise just the live-stack residue. -/
def currentExtras (einfo : Option ExecutorInfo) (cs : List CallFrame) (ind : Nat) :
    List OutFrame :=
  match einfo with
  | some e => executorFrames e ind ++ stackFrames cs (ind + e.call_trace.length)
  | none => stackFrames cs ind

/-- The root-boundary frame emitted for a task with no creation call trace. -/
def rootFrame (td : TaskData) (ind : Nat) : OutFrame :=
  { name := td.name, line := none, filename := none,
    indent := ind, task := some td.task, is_executor := false }

/-- Output frames for a nonempty creation call trace: one plain frame per
entry except the last, which becomes the task-creation boundary (tagged with
the created task). -/
def ctFrames (t : Task) : List CallFrame → Nat → List OutFrame
  | [], _ => []
  | [lastF], ind =>
    [{ name := lastF.name, line := some lastF.line,
       filename := some lastF.filename, indent := ind,
       task := some t, is_executor := false }]
  | f :: rest, ind => mkStackFrame f ind :: ctFrames t rest (ind + 1)

/-- The frames contributed by one task of the chain. -/
def taskFrames (td : TaskData) (einfo : Option ExecutorInfo)
    (cs : List CallFrame) (ind : Nat) : List OutFrame :=
  if td.call_trace.isEmpty then
    rootFrame td ind ::
      (if td.is_current then currentExtras einfo cs (ind + 1) else [])
  else
    ctFrames td.task td.call_trace ind ++
      (if td.is_current then currentExtras einfo cs (ind + td.call_trace.length)
       else [])

/-- The flattening loop over the task chain, threading the indent counter. -/
def flattenChain : List TaskData → Option ExecutorInfo → List CallFrame →
    Nat → List OutFrame
  | [], _, _, _ => []
  | td :: rest, einfo, cs, ind =>
    let fs := taskFrames td einfo cs ind
    fs ++ flattenChain rest einfo cs (ind + fs.length)

/-- `max((f["indent"] for f in frames), default=0)`. -/
def maxIndent (fs : List OutFrame) : Nat :=
  (fs.map (fun f => f.indent)).foldr max 0

/-- The final reversal plus indent renormalization of `collect_async_trace`. -/
def renormFrames (fs : List OutFrame) : List OutFrame :=
  let r := fs.reverse
  let m := maxIndent r
  r.map fun f => { f with indent := m - f.indent }

/-- Resolution of the current task: inside dispatched work it is the
dispatching task from the worker's record; otherwise the runtime's current
task (`asyncCT`, `none` when `asyncio.current_task()` is unavailable). -/
def currentTaskOf (ectx : CtxStore) (tid : Nat) (asyncCT : Option Task) :
    Option Task :=
  match lookupCtx ectx tid with
  | some e => e.parent
  | none => asyncCT

/-- The `current_stack` computed by `collect_async_trace`: the executor-branch
filter when a dispatch record exists for the calling thread, otherwise the
async-branch trimmed residue. -/
def currentStackOf (reg : Registry) (ectx : CtxStore) (tid : Nat)
    (asyncCT : Option Task) (stack : List CallFrame) : List CallFrame :=
  match lookupCtx ectx tid with
  | some _ => executorResidue stack
  | none => asyncResidue reg (currentTaskOf ectx tid asyncCT) stack

/-- The task chain built by the `while` loop, starting at the resolved
current task with an empty visited set. -/
def chainWithFuel (fuel : Nat) (reg : Registry) (ectx : CtxStore) (tid : Nat)
    (asyncCT : Option Task) : List TaskData :=
  walkChain reg (currentTaskOf ectx tid asyncCT) fuel
    (currentTaskOf ectx tid asyncCT) []

/-- `collect_async_trace`, with an explicit iteration bound for the chain
walk. State: `reg` is `_task_parents`, `ectx` is `_executor_contexts`, `tid`
the calling thread's identity, `asyncCT` the runtime's current task, and
`stack` the live call stack delivered by `traceback.extract_stack()`. -/
def collectWithFuel (fuel : Nat) (reg : Registry) (ectx : CtxStore)
    (tid : Nat) (asyncCT : Option Task) (stack : List CallFrame) : TraceResult :=
  { frames := renormFrames (flattenChain (chainWithFuel fuel reg ectx tid asyncCT)
      (lookupCtx ectx tid) (currentStackOf reg ectx tid asyncCT stack) 0)
    current_task := currentTaskOf ectx tid asyncCT
    in_executor := (lookupCtx ectx tid).isSome }

/-- `collect_async_trace`: the fuel `reg.length + 1` provably suffices (the
visited-set cycle guard admits at most one iteration per registry entry,
plus the unrecorded terminal task). -/
def collect_async_trace (reg : Registry) (ectx : CtxStore) (tid : Nat)
    (asyncCT : Option Task) (stack : List CallFrame) : TraceResult :=
  collectWithFuel (reg.length + 1) reg ectx tid asyncCT stack

/-- The live-stack trimming as claimed by the specification text: the cutoff
is the maximal live-stack index matching the last (innermost) creation-trace
entry only, by name + line; used to compare the claim against the code. -/
def lastEntryMatchIdx (ct : List CallFrame) (stack : List CallFrame) : Option Nat :=
  match ct.getLast? with
  | none => none
  | some lastF => maxMatchIdx [lastF] stack 0

/-- The claimed residue: frames strictly after the last-entry match cutoff,
filtered of tracer-internal and runtime frames. -/
def claimResidue (ct : List CallFrame) (stack : List CallFrame) : List CallFrame :=
  residueFrom (lastEntryMatchIdx ct stack) stack 0

/-- Adjacent chain entries are parent-linked: in the root-first order, every
entry records the entry before it as its parent. -/
def Chained : List TaskData → Prop
  | [] => True
  | [_] => True
  | x :: y :: rest => y.parent = some x.task ∧ Chained (y :: rest)

/-- Projection of an output frame to its location/identity fields (all
fields except the indent). -/
def outFields (fr : OutFrame) : String × Option Nat × Option String × Option Task :=
  (fr.name, fr.line, fr.filename, fr.task)

/-- The location/identity fields a live-stack frame summary turns into. -/
def liveFields (f : CallFrame) : String × Option Nat × Option String × Option Task :=
  (f.name, some f.line, some f.filename, none)

/- ### Lemmas: the lineage walk -/

theorem walk_none (reg : Registry) (cT : Option Task) (fuel : Nat)
    (visited : List Task) : walkChain reg cT fuel none visited = [] := by
  cases fuel <;> rfl

theorem walkChain_succ (reg : Registry) (cT : Option Task) (fuel : Nat)
    (t : Task) (visited : List Task) :
    walkChain reg cT (fuel + 1) (some t) visited =
      if t ∈ visited then []
      else
        walkChain reg cT fuel (mkTaskData reg cT t).parent (t :: visited) ++
          [mkTaskData reg cT t] := rfl

theorem walk_shape (reg : Registry) (cT : Option Task) :
    ∀ (fuel : Nat) (ct : Option Task) (visited : List Task),
      ∀ td ∈ walkChain reg cT fuel ct visited, td = mkTaskData reg cT td.task := by
  intro fuel
  induction fuel with
  | zero => intro ct visited td h; simp [walkChain] at h
  | succ f ih =>
    intro ct visited td h
    match ct with
    | none => rw [walk_none] at h; simp at h
    | some t =>
      rw [walkChain_succ] at h
      by_cases hv : t ∈ visited
      · rw [if_pos hv] at h; simp at h
      · rw [if_neg hv] at h
        rcases List.mem_append.mp h with h | h
        · exact ih _ _ td h
        · have : td = mkTaskData reg cT t := by simpa using h
          subst this; rfl

theorem walk_not_visited (reg : Registry) (cT : Option Task) :
    ∀ (fuel : Nat) (ct : Option Task) (visited : List Task),
      ∀ td ∈ walkChain reg cT fuel ct visited, td.task ∉ visited := by
  intro fuel
  induction fuel with
  | zero => intro ct visited td h; simp [walkChain] at h
  | succ f ih =>
    intro ct visited td h
    match ct with
    | none => rw [walk_none] at h; simp at h
    | some t =>
      rw [walkChain_succ] at h
      by_cases hv : t ∈ visited
      · rw [if_pos hv] at h; simp at h
      · rw [if_neg hv] at h
        rcases List.mem_append.mp h with h | h
        · intro hmem
          exact ih _ _ td h (List.mem_cons_of_mem _ hmem)
        · have : td = mkTaskData reg cT t := by simpa using h
          subst this
          simpa [mkTaskData] using hv

theorem walk_nodup (reg : Registry) (cT : Option Task) :
    ∀ (fuel : Nat) (ct : Option Task) (visited : List Task),
      ((walkChain reg cT fuel ct visited).map (·.task)).Nodup := by
  intro fuel
  induction fuel with
  | zero => intro ct visited; simp [walkChain]
  | succ f ih =>
    intro ct visited
    match ct with
    | none => rw [walk_none]; simp
    | some t =>
      rw [walkChain_succ]
      by_cases hv : t ∈ visited
      · rw [if_pos hv]; simp
      · rw [if_neg hv]
        rw [List.map_append]
        refine List.nodup_append.mpr ⟨ih _ _, by simp [mkTaskData], ?_⟩
        intro x hx
        rcases List.mem_map.mp hx with ⟨td, htd, rfl⟩
        have := walk_not_visited reg cT f _ _ td htd
        simp only [List.mem_map, List.mem_singleton]
        rintro ⟨td2, htd2, h2⟩
        have htd2' : td2 = mkTaskData reg cT t := by simpa using htd2
        apply this
        rw [← h2, htd2']
        exact List.mem_cons_self _ _

theorem walk_head_norecord (reg : Registry) (cT : Option Task) :
    ∀ (fuel : Nat) (ct : Option Task) (visited : List Task) (td : TaskData),
      td ∈ walkChain reg cT fuel ct visited →
      lookupRecord reg td.task = none →
      (walkChain reg cT fuel ct visited).head? = some td := by
  intro fuel
  induction fuel with
  | zero => intro ct visited td h; simp [walkChain] at h
  | succ f ih =>
    intro ct visited td h hrec
    match ct with
    | none => rw [walk_none] at h; simp at h
    | some t =>
      rw [walkChain_succ] at h ⊢
      by_cases hv : t ∈ visited
      · rw [if_pos hv] at h; simp at h
      · rw [if_neg hv] at h ⊢
        rcases List.mem_append.mp h with h | h
        · rw [List.head?_append, ih _ _ td h hrec]
          rfl
        · have htd : td = mkTaskData reg cT t := by simpa using h
          have htask : td.task = t := by rw [htd]; rfl
          have hpar : (mkTaskData reg cT t).parent = none := by
            simp [mkTaskData, htask ▸ hrec]
          rw [hpar, walk_none]
          simpa using htd.symm

theorem walk_getLast (reg : Registry) (cT : Option Task)
    (fuel : Nat) (ct : Option Task) (visited : List Task) (x : TaskData)
    (h : (walkChain reg cT fuel ct visited).getLast? = some x) :
    ∃ t, ct = some t ∧ x = mkTaskData reg cT t := by
  match fuel, ct with
  | 0, _ => simp [walkChain] at h
  | f + 1, none => rw [walk_none] at h; simp at h
  | f + 1, some t =>
    rw [walkChain_succ] at h
    by_cases hv : t ∈ visited
    · rw [if_pos hv] at h; simp at h
    · rw [if_neg hv, List.getLast?_concat] at h
      exact ⟨t, rfl, (Option.some.injEq _ _ ▸ h).symm⟩

theorem chained_append (L : List TaskData) (y : TaskData)
    (hC : Chained L) (hLast : ∀ x, L.getLast? = some x → y.parent = some x.task) :
    Chained (L ++ [y]) := by
  induction L with
  | nil => trivial
  | cons a L ih =>
    cases L with
    | nil => exact ⟨hLast a rfl, trivial⟩
    | cons b L' =>
      obtain ⟨h1, h2⟩ := hC
      exact ⟨h1, ih h2 (fun x hx => hLast x (by simpa using hx))⟩

theorem walk_chained (reg : Registry) (cT : Option Task) :
    ∀ (fuel : Nat) (ct : Option Task) (visited : List Task),
      Chained (walkChain reg cT fuel ct visited) := by
  intro fuel
  induction fuel with
  | zero => intro ct visited; simp only [walkChain]; trivial
  | succ f ih =>
    intro ct visited
    match ct with
    | none => rw [walk_none]; trivial
    | some t =>
      rw [walkChain_succ]
      by_cases hv : t ∈ visited
      · rw [if_pos hv]; trivial
      · rw [if_neg hv]
        apply chained_append _ _ (ih _ _)
        intro x hx
        rcases walk_getLast reg cT f _ _ x hx with ⟨p, hp, rfl⟩
        rw [hp]
        rfl

theorem lookup_mem_keys (reg : Registry) (t : Task) (r : CreationRecord)
    (h : lookupRecord reg t = some r) : t ∈ reg.map Prod.fst := by
  unfold lookupRecord at h
  rcases Option.map_eq_some'.mp h with ⟨p, hp, _⟩
  have hmem := List.mem_of_find?_eq_some hp
  have hpred := List.find?_some hp
  have hp1 : p.1 = t := of_decide_eq_true hpred
  exact hp1 ▸ List.mem_map_of_mem Prod.fst hmem

theorem filter_visited_lt (keys : List Task) (t : Task) (visited : List Task)
    (ht : t ∈ keys) (hv : t ∉ visited) :
    (keys.filter fun x => decide (x ∉ t :: visited)).length <
      (keys.filter fun x => decide (x ∉ visited)).length := by
  induction keys with
  | nil => simp at ht
  | cons k ks ih =>
    by_cases hkt : k = t
    · subst hkt
      rw [List.filter_cons_of_neg (by simp), List.filter_cons_of_pos (by simpa using hv)]
      have hle : (ks.filter fun x => decide (x ∉ k :: visited)).length ≤
          (ks.filter fun x => decide (x ∉ visited)).length := by
        apply List.Sublist.length_le
        apply List.monotone_filter_right
        intro a ha
        simp only [decide_eq_true_eq, List.mem_cons, not_or] at ha ⊢
        exact ha.2
      exact Nat.lt_succ_of_le hle
    · have ht' : t ∈ ks := by
        rcases List.mem_cons.mp ht with h | h
        · exact absurd h.symm hkt
        · exact h
      by_cases hkv : k ∈ visited
      · rw [List.filter_cons_of_neg (by simp [hkv]),
          List.filter_cons_of_neg (by simp [hkv])]
        exact ih ht'
      · rw [List.filter_cons_of_pos (by simp [hkv, hkt]),
          List.filter_cons_of_pos (by simp [hkv])]
        exact Nat.succ_lt_succ (ih ht')

theorem walk_fuel_stable (reg : Registry) (cT : Option Task) :
    ∀ (fuel₁ fuel₂ : Nat) (ct : Option Task) (visited : List Task),
      ((reg.map Prod.fst).filter fun x => decide (x ∉ visited)).length + 1 ≤ fuel₁ →
      ((reg.map Prod.fst).filter fun x => decide (x ∉ visited)).length + 1 ≤ fuel₂ →
      walkChain reg cT fuel₁ ct visited = walkChain reg cT fuel₂ ct visited := by
  intro fuel₁
  induction fuel₁ with
  | zero => intro fuel₂ ct visited h1 h2; omega
  | succ f ih =>
    intro fuel₂ ct visited h1 h2
    match fuel₂, ct with
    | 0, _ => omega
    | g + 1, none => rw [walk_none, walk_none]
    | g + 1, some t =>
      rw [walkChain_succ, walkChain_succ]
      by_cases hv : t ∈ visited
      · rw [if_pos hv, if_pos hv]
      · rw [if_neg hv, if_neg hv]
        congr 1
        cases hrec : lookupRecord reg t with
        | none =>
          have hpar : (mkTaskData reg cT t).parent = none := by
            simp [mkTaskData, hrec]
          rw [hpar, walk_none, walk_none]
        | some r =>
          have hmem : t ∈ reg.map Prod.fst := lookup_mem_keys reg t r hrec
          have hlt := filter_visited_lt (reg.map Prod.fst) t visited hmem hv
          apply ih
          · omega
          · omega

/- ### Lemmas: frame construction -/

theorem stackFrames_mem (cs : List CallFrame) :
    ∀ (ind : Nat) (fr : OutFrame), fr ∈ stackFrames cs ind →
      ∃ f ∈ cs, fr.name = f.name ∧ fr.line = some f.line ∧
        fr.filename = some f.filename ∧ fr.task = none ∧ fr.is_executor = false := by
  induction cs with
  | nil => intro ind fr h; simp [stackFrames] at h
  | cons f rest ih =>
    intro ind fr h
    rcases List.mem_cons.mp h with h | h
    · exact ⟨f, List.mem_cons_self _ _, by subst h; simp [mkStackFrame]⟩
    · rcases ih _ fr h with ⟨g, hg, hfields⟩
      exact ⟨g, List.mem_cons_of_mem _ hg, hfields⟩

theorem executorFramesAux_mem (lastF : Option CallFrame) (l : List CallFrame) :
    ∀ (ind : Nat) (fr : OutFrame), fr ∈ executorFramesAux lastF l ind →
      fr.task = none := by
  induction l with
  | nil => intro ind fr h; simp [executorFramesAux] at h
  | cons tf rest ih =>
    intro ind fr h
    rcases List.mem_cons.mp h with h | h
    · subst h; rfl
    · exact ih _ fr h

theorem ctFrames_mem_task (t : Task) :
    ∀ (l : List CallFrame) (ind : Nat) (fr : OutFrame), fr ∈ ctFrames t l ind →
      fr.task = none ∨ fr.task = some t := by
  intro l
  induction l with
  | nil => intro ind fr h; simp [ctFrames] at h
  | cons f rest ih =>
    intro ind fr h
    cases rest with
    | nil =>
      simp only [ctFrames, List.mem_singleton] at h
      right; rw [h]
    | cons g rest' =>
      rcases List.mem_cons.mp h with h | h
      · left; subst h; rfl
      · exact ih _ fr h

theorem currentExtras_mem_task (einfo : Option ExecutorInfo) (cs : List CallFrame)
    (ind : Nat) (fr : OutFrame) (h : fr ∈ currentExtras einfo cs ind) :
    fr.task = none := by
  match einfo with
  | some e =>
    simp only [currentExtras, executorFrames] at h
    rcases List.mem_append.mp h with h | h
    · exact executorFramesAux_mem _ _ _ fr h
    · rcases stackFrames_mem cs _ fr h with ⟨f, _, _, _, _, h4, _⟩
      exact h4
  | none =>
    simp only [currentExtras] at h
    rcases stackFrames_mem cs _ fr h with ⟨f, _, _, _, _, h4, _⟩
    exact h4

theorem countP_zero_of_task_none {fs : List OutFrame} (p : Option Task → Bool)
    (hp : p none = false) (h : ∀ fr ∈ fs, fr.task = none) :
    fs.countP (fun fr => p fr.task) = 0 := by
  apply List.countP_eq_zero.mpr
  intro fr hfr
  simp [h fr hfr, hp]

theorem ctFrames_countP (t : Task) (p : Option Task → Bool) (hp : p none = false) :
    ∀ (l : List CallFrame) (ind : Nat), l ≠ [] →
      (ctFrames t l ind).countP (fun fr => p fr.task) =
        if p (some t) then 1 else 0 := by
  intro l
  induction l with
  | nil => intro ind h; exact absurd rfl h
  | cons f rest ih =>
    intro ind _
    cases rest with
    | nil => simp [ctFrames, List.countP_cons]
    | cons g rest' =>
      rw [show ctFrames t (f :: g :: rest') ind =
        mkStackFrame f ind :: ctFrames t (g :: rest') (ind + 1) from rfl]
      rw [List.countP_cons, ih _ (by simp)]
      simp [mkStackFrame, hp]

theorem taskFrames_countP (td : TaskData) (einfo : Option ExecutorInfo)
    (cs : List CallFrame) (ind : Nat) (p : Option Task → Bool)
    (hp : p none = false) :
    (taskFrames td einfo cs ind).countP (fun fr => p fr.task) =
      if p (some td.task) then 1 else 0 := by
  have hz : ∀ k, (if td.is_current then currentExtras einfo cs k
      else []).countP (fun fr => p fr.task) = 0 := by
    intro k
    apply countP_zero_of_task_none p hp
    intro fr hfr
    split at hfr
    · exact currentExtras_mem_task _ _ _ fr hfr
    · simp at hfr
  unfold taskFrames
  by_cases he : td.call_trace.isEmpty
  · rw [if_pos he, List.countP_cons, hz]
    simp [rootFrame]
  · rw [if_neg he, List.countP_append, hz,
      ctFrames_countP td.task p hp td.call_trace ind
        (by simpa [List.isEmpty_iff] using he)]
    omega

theorem flatten_append (l1 l2 : List TaskData) (e : Option ExecutorInfo)
    (cs : List CallFrame) : ∀ ind,
    flattenChain (l1 ++ l2) e cs ind =
      flattenChain l1 e cs ind ++
        flattenChain l2 e cs (ind + (flattenChain l1 e cs ind).length) := by
  induction l1 with
  | nil => intro ind; simp [flattenChain]
  | cons td l1 ih =>
    intro ind
    simp only [List.cons_append, flattenChain, List.append_eq]
    rw [ih]
    simp [List.append_assoc, List.length_append, Nat.add_assoc]

theorem flatten_countP (e : Option ExecutorInfo) (cs : List CallFrame)
    (p : Option Task → Bool) (hp : p none = false) :
    ∀ (l : List TaskData) (ind : Nat),
      (flattenChain l e cs ind).countP (fun fr => p fr.task) =
        l.countP (fun td => p (some td.task)) := by
  intro l
  induction l with
  | nil => intro ind; simp [flattenChain]
  | cons td l ih =>
    intro ind
    simp only [flattenChain]
    rw [List.countP_append, taskFrames_countP td e cs ind p hp, ih]
    rw [List.countP_cons]
    omega

theorem flatten_mem (e : Option ExecutorInfo) (cs : List CallFrame) :
    ∀ (l : List TaskData) (ind : Nat) (fr : OutFrame),
      fr ∈ flattenChain l e cs ind →
      ∃ td ∈ l, ∃ k, fr ∈ taskFrames td e cs k := by
  intro l
  induction l with
  | nil => intro ind fr h; simp [flattenChain] at h
  | cons td l ih =>
    intro ind fr h
    simp only [flattenChain] at h
    rcases List.mem_append.mp h with h | h
    · exact ⟨td, List.mem_cons_self _ _, ind, h⟩
    · rcases ih _ fr h with ⟨td', htd', k, hk⟩
      exact ⟨td', List.mem_cons_of_mem _ htd', k, hk⟩

theorem flatten_exists (e : Option ExecutorInfo) (cs : List CallFrame)
    (P : OutFrame → Prop) (td : TaskData) :
    ∀ (l : List TaskData), td ∈ l →
      (∀ k, ∃ fr ∈ taskFrames td e cs k, P fr) →
      ∀ ind, ∃ fr ∈ flattenChain l e cs ind, P fr := by
  intro l
  induction l with
  | nil => intro h; simp at h
  | cons td0 l ih =>
    intro hmem hex ind
    simp only [flattenChain]
    rcases List.mem_cons.mp hmem with h | h
    · subst h
      rcases hex ind with ⟨fr, hfr, hP⟩
      exact ⟨fr, List.mem_append_left _ hfr, hP⟩
    · rcases ih h hex _ with ⟨fr, hfr, hP⟩
      exact ⟨fr, List.mem_append_right _ hfr, hP⟩

theorem renorm_countP (fs : List OutFrame) (p : OutFrame → Bool)
    (hp : ∀ f n, p { f with indent := n } = p f) :
    (renormFrames fs).countP p = fs.countP p := by
  show (fs.reverse.map fun f =>
    { f with indent := maxIndent fs.reverse - f.indent }).countP p = fs.countP p
  rw [List.countP_map]
  rw [show (p ∘ fun f : OutFrame =>
    { f with indent := maxIndent fs.reverse - f.indent }) = p from
    funext fun f => hp f _]
  rw [List.countP_eq_length_filter, List.countP_eq_length_filter,
    List.filter_reverse, List.length_reverse]

theorem renorm_mem (fs : List OutFrame) (fr : OutFrame) (h : fr ∈ fs) :
    ∃ fr' ∈ renormFrames fs, fr'.name = fr.name ∧ fr'.line = fr.line ∧
      fr'.filename = fr.filename ∧ fr'.task = fr.task ∧
      fr'.is_executor = fr.is_executor := by
  refine ⟨{ fr with indent := maxIndent fs.reverse - fr.indent }, ?_,
    rfl, rfl, rfl, rfl, rfl⟩
  show _ ∈ fs.reverse.map fun f =>
    { f with indent := maxIndent fs.reverse - f.indent }
  exact List.mem_map_of_mem _ (List.mem_reverse.mpr h)

theorem renorm_mem_rev (fs : List OutFrame) (fr' : OutFrame)
    (h : fr' ∈ renormFrames fs) :
    ∃ fr ∈ fs, fr'.name = fr.name ∧ fr'.line = fr.line ∧
      fr'.filename = fr.filename ∧ fr'.task = fr.task ∧
      fr'.is_executor = fr.is_executor := by
  have h' : fr' ∈ fs.reverse.map (fun f =>
      { f with indent := maxIndent fs.reverse - f.indent }) := h
  rcases List.mem_map.mp h' with ⟨fr, hfr, rfl⟩
  exact ⟨fr, List.mem_reverse.mp hfr, rfl, rfl, rfl, rfl, rfl⟩

/- ### Lemmas: consecutive indents -/

theorem stackFrames_length (cs : List CallFrame) :
    ∀ ind, (stackFrames cs ind).length = cs.length := by
  induction cs with
  | nil => intro ind; rfl
  | cons f rest ih => intro ind; simp [stackFrames, ih]

theorem executorFramesAux_length (lastF : Option CallFrame) (l : List CallFrame) :
    ∀ ind, (executorFramesAux lastF l ind).length = l.length := by
  induction l with
  | nil => intro ind; rfl
  | cons tf rest ih => intro ind; simp [executorFramesAux, ih]

theorem ctFrames_length (t : Task) :
    ∀ (l : List CallFrame) (ind : Nat), (ctFrames t l ind).length = l.length := by
  intro l
  induction l with
  | nil => intro ind; rfl
  | cons f rest ih =>
    intro ind
    cases rest with
    | nil => rfl
    | cons g rest' => simp [ctFrames, ih]

theorem consec_append {fs gs : List OutFrame} {ind : Nat}
    (hf : fs.map (fun f => f.indent) = List.range' ind fs.length)
    (hg : gs.map (fun f => f.indent) = List.range' (ind + fs.length) gs.length) :
    (fs ++ gs).map (fun f => f.indent) = List.range' ind (fs ++ gs).length := by
  rw [List.map_append, hf, hg, List.length_append, List.range'_append_1]
  congr 1
  omega

theorem consec_cons {f0 : OutFrame} {gs : List OutFrame} {ind : Nat}
    (h0 : f0.indent = ind)
    (hg : gs.map (fun f => f.indent) = List.range' (ind + 1) gs.length) :
    (f0 :: gs).map (fun f => f.indent) = List.range' ind (f0 :: gs).length := by
  simp [h0, hg, List.range'_succ]

theorem stackFrames_map_indent (cs : List CallFrame) :
    ∀ ind, (stackFrames cs ind).map (fun f => f.indent) =
      List.range' ind (stackFrames cs ind).length := by
  induction cs with
  | nil => intro ind; rfl
  | cons f rest ih =>
    intro ind
    exact consec_cons rfl (ih (ind + 1))

theorem executorFramesAux_map_indent (lastF : Option CallFrame)
    (l : List CallFrame) : ∀ ind,
    (executorFramesAux lastF l ind).map (fun f => f.indent) =
      List.range' ind (executorFramesAux lastF l ind).length := by
  induction l with
  | nil => intro ind; rfl
  | cons tf rest ih =>
    intro ind
    exact consec_cons rfl (ih (ind + 1))

theorem ctFrames_map_indent (t : Task) :
    ∀ (l : List CallFrame) (ind : Nat),
      (ctFrames t l ind).map (fun f => f.indent) =
        List.range' ind (ctFrames t l ind).length := by
  intro l
  induction l with
  | nil => intro ind; rfl
  | cons f rest ih =>
    intro ind
    cases rest with
    | nil => rfl
    | cons g rest' =>
      rw [show ctFrames t (f :: g :: rest') ind =
        mkStackFrame f ind :: ctFrames t (g :: rest') (ind + 1) from rfl]
      exact consec_cons rfl (ih (ind + 1))

theorem currentExtras_map_indent (einfo : Option ExecutorInfo)
    (cs : List CallFrame) (ind : Nat) :
    (currentExtras einfo cs ind).map (fun f => f.indent) =
      List.range' ind (currentExtras einfo cs ind).length := by
  match einfo with
  | some e =>
    show (executorFrames e ind ++ stackFrames cs (ind + e.call_trace.length)).map _ =
      List.range' ind (executorFrames e ind ++
        stackFrames cs (ind + e.call_trace.length)).length
    apply consec_append
    · exact executorFramesAux_map_indent _ _ ind
    · rw [show (executorFrames e ind).length = e.call_trace.length from
        executorFramesAux_length _ _ ind]
      exact stackFrames_map_indent cs _
  | none => exact stackFrames_map_indent cs ind

theorem taskFrames_map_indent (td : TaskData) (einfo : Option ExecutorInfo)
    (cs : List CallFrame) (ind : Nat) :
    (taskFrames td einfo cs ind).map (fun f => f.indent) =
      List.range' ind (taskFrames td einfo cs ind).length := by
  unfold taskFrames
  by_cases he : td.call_trace.isEmpty
  · rw [if_pos he]
    apply consec_cons rfl
    by_cases hc : td.is_current
    · rw [if_pos hc]; exact currentExtras_map_indent einfo cs (ind + 1)
    · rw [if_neg hc]; rfl
  · rw [if_neg he]
    apply consec_append (ctFrames_map_indent td.task td.call_trace ind)
    rw [ctFrames_length]
    by_cases hc : td.is_current
    · rw [if_pos hc]; exact currentExtras_map_indent einfo cs _
    · rw [if_neg hc]; rfl

theorem flatten_map_indent (e : Option ExecutorInfo) (cs : List CallFrame) :
    ∀ (l : List TaskData) (ind : Nat),
      (flattenChain l e cs ind).map (fun f => f.indent) =
        List.range' ind (flattenChain l e cs ind).length := by
  intro l
  induction l with
  | nil => intro ind; rfl
  | cons td l ih =>
    intro ind
    simp only [flattenChain]
    exact consec_append (taskFrames_map_indent td e cs ind) (ih _)

/- ### Lemmas: the final reversal and indent renormalization -/

theorem range'_zero_reverse (n : Nat) :
    (List.range' 0 (n + 1)).reverse = n :: (List.range' 0 n).reverse := by
  rw [List.range'_concat]
  simp

theorem foldr_max_range' (n : Nat) :
    ((List.range' 0 (n + 1)).reverse.foldr max 0) = n := by
  induction n with
  | zero => rfl
  | succ m ih =>
    rw [range'_zero_reverse]
    simp only [List.foldr_cons]
    rw [show (List.range' 0 (m + 1)).reverse.foldr max 0 = m from ih]
    omega

theorem range'_reverse_map_sub : ∀ (n c : Nat),
    (List.range' 0 n).reverse.map (fun x => n - 1 + c - x) = List.range' c n := by
  intro n
  induction n with
  | zero => intro c; rfl
  | succ m ih =>
    intro c
    rw [range'_zero_reverse]
    simp only [List.map_cons]
    have h1 : m + 1 - 1 + c - m = c := by omega
    rw [h1]
    have h2 : (List.range' 0 m).reverse.map (fun x => m + 1 - 1 + c - x) =
        (List.range' 0 m).reverse.map (fun x => m - 1 + (c + 1) - x) := by
      apply List.map_congr_left
      intro x hx
      have hxm : x < m := by
        have hx' := List.mem_range'_1.mp (List.mem_reverse.mp hx)
        omega
      omega
    rw [h2, ih (c + 1), List.range'_succ]

theorem renorm_length (fs : List OutFrame) :
    (renormFrames fs).length = fs.length := by
  show (fs.reverse.map _).length = _
  simp

theorem renorm_map_indent (fs : List OutFrame)
    (h : fs.map (fun f => f.indent) = List.range' 0 fs.length) :
    (renormFrames fs).map (fun f => f.indent) = List.range' 0 fs.length := by
  cases hk : fs.length with
  | zero =>
    have : fs = [] := List.length_eq_zero.mp hk
    subst this; rfl
  | succ n =>
    have hmax : maxIndent fs.reverse = n := by
      unfold maxIndent
      rw [List.map_reverse, h, hk]
      exact foldr_max_range' n
    show (fs.reverse.map fun f =>
      { f with indent := maxIndent fs.reverse - f.indent }).map (fun f => f.indent) = _
    rw [List.map_map]
    rw [show ((fun f : OutFrame => f.indent) ∘ fun f : OutFrame =>
      { f with indent := maxIndent fs.reverse - f.indent }) =
      fun f : OutFrame => maxIndent fs.reverse - f.indent from rfl]
    rw [hmax]
    rw [show fs.reverse.map (fun f => n - f.indent) =
      (fs.map (fun f => f.indent)).reverse.map (fun x => n - x) by
        simp [List.map_reverse, List.map_map, Function.comp]]
    rw [h, hk]
    have hr := range'_reverse_map_sub (n + 1) 0
    simpa using hr

theorem stackFrames_map_fields (cs : List CallFrame) :
    ∀ ind, (stackFrames cs ind).map outFields = cs.map liveFields := by
  induction cs with
  | nil => intro ind; rfl
  | cons f rest ih =>
    intro ind
    simp [stackFrames, outFields, liveFields, mkStackFrame, ih]

theorem countP_task_one (t : Task) : ∀ (l : List TaskData),
    (l.map (fun td => td.task)).Nodup → t ∈ l.map (fun td => td.task) →
    l.countP (fun td => decide (td.task = t)) = 1 := by
  intro l
  induction l with
  | nil => intro _ h; simp at h
  | cons td l ih =>
    intro hnd hm
    rw [List.map_cons] at hnd hm
    rw [List.countP_cons]
    by_cases he : td.task = t
    · have hnotin : t ∉ l.map (fun td => td.task) := by
        have h0 := (List.nodup_cons.mp hnd).1
        rw [he] at h0; exact h0
      have hz : l.countP (fun td => decide (td.task = t)) = 0 := by
        apply List.countP_eq_zero.mpr
        intro td' htd'
        simp only [decide_eq_true_eq]
        intro hcontra
        exact hnotin (hcontra ▸ List.mem_map_of_mem _ htd')
      simp [hz, he]
    · rcases List.mem_cons.mp hm with h | h
      · exact absurd h.symm he
      · rw [ih (List.nodup_cons.mp hnd).2 h]
        simp [he]

theorem taskFrames_task_some (td : TaskData) (einfo : Option ExecutorInfo)
    (cs : List CallFrame) (ind : Nat) (fr : OutFrame)
    (h : fr ∈ taskFrames td einfo cs ind) (hsome : fr.task ≠ none) :
    fr.task = some td.task ∧
      (td.call_trace = [] → fr.line = none ∧ fr.filename = none) := by
  unfold taskFrames at h
  by_cases he : td.call_trace.isEmpty
  · rw [if_pos he] at h
    rcases List.mem_cons.mp h with h | h
    · subst h; exact ⟨rfl, fun _ => ⟨rfl, rfl⟩⟩
    · exfalso
      apply hsome
      split at h
      · exact currentExtras_mem_task _ _ _ _ h
      · simp at h
  · rw [if_neg he] at h
    rcases List.mem_append.mp h with h | h
    · rcases ctFrames_mem_task td.task _ _ _ h with h' | h'
      · exact absurd h' hsome
      · refine ⟨h', fun hc => ?_⟩
        rw [hc] at he
        exact absurd rfl he
    · exfalso
      apply hsome
      split at h
      · exact currentExtras_mem_task _ _ _ _ h
      · simp at h

theorem ctFrames_last_exists (t : Task) :
    ∀ (l : List CallFrame) (hne : l ≠ []) (ind : Nat),
      ∃ fr ∈ ctFrames t l ind,
        fr.task = some t ∧ fr.name = (l.getLast hne).name ∧
        fr.line = some (l.getLast hne).line ∧
        fr.filename = some (l.getLast hne).filename := by
  intro l
  induction l with
  | nil => intro hne; exact absurd rfl hne
  | cons f rest ih =>
    intro hne ind
    cases rest with
    | nil =>
      exact ⟨OutFrame.mk f.name (some f.line) (some f.filename) ind (some t) false,
        by simp [ctFrames], rfl, rfl, rfl, rfl⟩
    | cons g rest' =>
      rcases ih (by simp) (ind + 1) with ⟨fr, hmem, h1, h2, h3, h4⟩
      refine ⟨fr, ?_, h1, h2, h3, h4⟩
      rw [show ctFrames t (f :: g :: rest') ind =
        mkStackFrame f ind :: ctFrames t (g :: rest') (ind + 1) from rfl]
      exact List.mem_cons_of_mem _ hmem

theorem taskFrames_boundary_exists (td : TaskData) (einfo : Option ExecutorInfo)
    (cs : List CallFrame) (ind : Nat) :
    ∃ fr ∈ taskFrames td einfo cs ind,
      fr.task = some td.task ∧
      (td.call_trace = [] → fr.line = none ∧ fr.filename = none) ∧
      (∀ hne : td.call_trace ≠ [],
        fr.name = (td.call_trace.getLast hne).name ∧
        fr.line = some (td.call_trace.getLast hne).line ∧
        fr.filename = some (td.call_trace.getLast hne).filename) := by
  unfold taskFrames
  by_cases he : td.call_trace.isEmpty
  · rw [if_pos he]
    refine ⟨rootFrame td ind, List.mem_cons_self _ _, rfl,
      fun _ => ⟨rfl, rfl⟩, fun hne => ?_⟩
    exact absurd (List.isEmpty_iff.mp he) hne
  · rw [if_neg he]
    have hne : td.call_trace ≠ [] := by
      intro hc; rw [hc] at he; exact absurd rfl he
    rcases ctFrames_last_exists td.task td.call_trace hne ind with
      ⟨fr, hmem, h1, h2, h3, h4⟩
    exact ⟨fr, List.mem_append_left _ hmem, h1,
      fun hc => absurd hc hne, fun _ => ⟨h2, h3, h4⟩⟩

theorem execAux_last_exists :
    ∀ (l : List CallFrame) (hne : l ≠ []) (ind : Nat) (lastF : Option CallFrame),
      lastF = some (l.getLast hne) →
      ∃ fr ∈ executorFramesAux lastF l ind,
        fr.is_executor = true ∧ fr.name = (l.getLast hne).name := by
  intro l
  induction l with
  | nil => intro hne; exact absurd rfl hne
  | cons tf rest ih =>
    intro hne ind lastF hlast
    cases rest with
    | nil =>
      refine ⟨OutFrame.mk tf.name (some tf.line) (some tf.filename) ind none
        (decide (some tf = lastF)), by simp [executorFramesAux], ?_, rfl⟩
      have : (tf :: []).getLast hne = tf := rfl
      rw [this] at hlast
      simp [hlast]
    | cons g rest' =>
      rcases ih (by simp) (ind + 1) lastF hlast with ⟨fr, hmem, h1, h2⟩
      exact ⟨fr, List.mem_cons_of_mem _ hmem, h1, h2⟩

theorem executorFrames_boundary_exists (e : ExecutorInfo)
    (hne : e.call_trace ≠ []) (ind : Nat) :
    ∃ fr ∈ executorFrames e ind,
      fr.is_executor = true ∧ fr.name = (e.call_trace.getLast hne).name := by
  exact execAux_last_exists e.call_trace hne ind _
    (List.getLast?_eq_getLast _ hne)

theorem taskFrames_executor_exists (td : TaskData) (e : ExecutorInfo)
    (cs : List CallFrame) (ind : Nat) (hc : td.is_current = true)
    (hne : e.call_trace ≠ []) :
    ∃ fr ∈ taskFrames td (some e) cs ind,
      fr.is_executor = true ∧ fr.name = (e.call_trace.getLast hne).name := by
  unfold taskFrames
  by_cases he : td.call_trace.isEmpty
  · rw [if_pos he, if_pos hc]
    rcases executorFrames_boundary_exists e hne (ind + 1) with ⟨fr, hmem, h1, h2⟩
    refine ⟨fr, List.mem_cons_of_mem _ ?_, h1, h2⟩
    show fr ∈ currentExtras (some e) cs (ind + 1)
    simp only [currentExtras]
    exact List.mem_append_left _ hmem
  · rw [if_neg he, if_pos hc]
    rcases executorFrames_boundary_exists e hne (ind + td.call_trace.length) with
      ⟨fr, hmem, h1, h2⟩
    refine ⟨fr, List.mem_append_right _ ?_, h1, h2⟩
    show fr ∈ currentExtras (some e) cs (ind + td.call_trace.length)
    simp only [currentExtras]
    exact List.mem_append_left _ hmem

theorem taskFrames_current_none_split (td : TaskData) (cs : List CallFrame)
    (ind : Nat) (hc : td.is_current = true) :
    ∃ Q ind1, taskFrames td none cs ind = Q ++ stackFrames cs ind1 := by
  unfold taskFrames
  by_cases he : td.call_trace.isEmpty
  · rw [if_pos he, if_pos hc]
    exact ⟨[rootFrame td ind], ind + 1, rfl⟩
  · rw [if_neg he, if_pos hc]
    exact ⟨ctFrames td.task td.call_trace ind, ind + td.call_trace.length, rfl⟩

theorem lookup_ctxErase (m : CtxStore) (k : Nat) :
    lookupCtx (ctxErase m k) k = none := by
  induction m with
  | nil => rfl
  | cons p m ih =>
    unfold ctxErase at ih ⊢
    by_cases hp : p.1 = k
    · rw [List.filter_cons_of_neg (by simp [hp])]
      exact ih
    · rw [List.filter_cons_of_pos (by simp [hp])]
      unfold lookupCtx at ih ⊢
      rw [List.find?_cons_of_neg _ (by simp [hp])]
      exact ih

/- ### Claim theorems -/

/-- C5: for every callable run through the traced `run_in_executor`, the
dispatch record stored for the worker thread is removed when the callable
finishes — normal return and raised exception alike (the pop is in a
`finally` block) — and afterwards a lookup of the dispatch-context store
keyed by that worker finds no record; the callable's outcome propagates
unchanged. -/
theorem traced_func_always_cleans_up {α : Type} (m : CtxStore) (tid : Nat)
    (einfo : ExecutorInfo) (outcome : Except String α) :
    (traced_func m tid einfo outcome).1 = outcome ∧
      lookupCtx (traced_func m tid einfo outcome).2 tid = none :=
  ⟨rfl, lookup_ctxErase _ tid⟩

/-- C7: when no dispatch record exists for the calling thread and the runtime
reports no current task, `collect_async_trace` returns a degraded-but-valid
result: no current task, not in executor, empty frames list. -/
theorem collect_no_current_task (reg : Registry) (ectx : CtxStore) (tid : Nat)
    (stack : List CallFrame) (h : lookupCtx ectx tid = none) :
    collect_async_trace reg ectx tid none stack =
      { frames := [], current_task := none, in_executor := false } := by
  unfold collect_async_trace collectWithFuel
  have hct : currentTaskOf ectx tid none = none := by
    unfold currentTaskOf; rw [h]
  have hchain : chainWithFuel (reg.length + 1) reg ectx tid none = [] := by
    unfold chainWithFuel; rw [hct, walk_none]
  simp [hchain, hct, h, flattenChain, renormFrames, maxIndent]

/-- C7 witness: the degenerate call on fully empty state. -/
theorem collect_no_current_task_witness :
    collect_async_trace [] [] 0 none [] =
      { frames := [], current_task := none, in_executor := false } :=
  collect_no_current_task [] [] 0 [] rfl

/-- C10: inside dispatched work whose dispatch record carries no dispatching
task (dispatch from outside any asyncio task), the result still reports
`in_executor = true` but has no current task and an empty frames list — the
dispatch call trace and the worker's live stack are omitted entirely. -/
theorem collect_dispatch_without_task (reg : Registry) (ectx : CtxStore)
    (tid : Nat) (asyncCT : Option Task) (stack : List CallFrame)
    (e : ExecutorInfo) (h1 : lookupCtx ectx tid = some e) (h2 : e.parent = none) :
    collect_async_trace reg ectx tid asyncCT stack =
      { frames := [], current_task := none, in_executor := true } := by
  unfold collect_async_trace collectWithFuel
  have hct : currentTaskOf ectx tid asyncCT = none := by
    unfold currentTaskOf; rw [h1]; exact h2
  have hchain : chainWithFuel (reg.length + 1) reg ectx tid asyncCT = [] := by
    unfold chainWithFuel; rw [hct, walk_none]
  simp [hchain, hct, h1, flattenChain, renormFrames, maxIndent]

/-- C10 witness: a dispatch record with an absent parent, a nonempty dispatch
trace and a nonempty live stack still yield an empty frames list. -/
theorem collect_dispatch_without_task_witness :
    collect_async_trace [] [(7, ⟨none, [⟨"main", 10, "", "/app/x.py"⟩], "bw"⟩)] 7
      none [⟨"h", 9, "", "/app/live.py"⟩] =
      { frames := [], current_task := none, in_executor := true } :=
  collect_dispatch_without_task [] _ 7 none _ _ rfl rfl

/-- C9: for every state of the lineage registry and dispatch-context store —
missing records, absent stacks, cyclic or corrupted parent links included —
`collect_async_trace` is a total function whose chain walk has provably
sufficient fuel: giving the walk any extra fuel changes nothing, so the
`while` loop terminates within `reg.length + 1` iterations and the call
returns a result for every input. -/
theorem collect_always_terminates (reg : Registry) (ectx : CtxStore) (tid : Nat)
    (asyncCT : Option Task) (stack : List CallFrame) (extra : Nat) :
    collectWithFuel (reg.length + 1 + extra) reg ectx tid asyncCT stack =
      collect_async_trace reg ectx tid asyncCT stack := by
  unfold collect_async_trace collectWithFuel chainWithFuel
  have h1 := List.length_filter_le
    (fun x => decide (x ∉ ([] : List Task))) (reg.map Prod.fst)
  rw [List.length_map] at h1
  rw [walk_fuel_stable reg _ (reg.length + 1 + extra) (reg.length + 1) _ []
    (by omega) (by omega)]

/-- C2: in every result, the frame at index 0 (innermost) has indent 0 and
indents increase strictly to the maximum at the last (root) frame — frame `i`
has indent exactly `i`. -/
theorem collect_frames_indent (reg : Registry) (ectx : CtxStore) (tid : Nat)
    (asyncCT : Option Task) (stack : List CallFrame) (i : Nat)
    (h : i < (collect_async_trace reg ectx tid asyncCT stack).frames.length) :
    ((collect_async_trace reg ectx tid asyncCT stack).frames.get ⟨i, h⟩).indent = i := by
  have key : ∀ (L : List OutFrame)
      (hL : L.map (fun f => f.indent) = List.range' 0 L.length)
      (hi : i < L.length), (L.get ⟨i, hi⟩).indent = i := by
    intro L hL hi
    have hi' : i < (L.map (fun f => f.indent)).length := by simpa using hi
    have h3 := List.get_of_eq hL ⟨i, hi'⟩
    rw [List.get_map] at h3
    have h4 : (List.range' 0 L.length).get ⟨i, by simpa using hi⟩ = 0 + 1 * i :=
      List.get_range' i (by simpa using hi)
    exact h3.trans (h4.trans (by omega))
  have hL : (collect_async_trace reg ectx tid asyncCT stack).frames.map
        (fun f => f.indent) =
      List.range' 0 (collect_async_trace reg ectx tid asyncCT stack).frames.length := by
    show (renormFrames (flattenChain (chainWithFuel (reg.length + 1) reg ectx tid asyncCT)
        (lookupCtx ectx tid) (currentStackOf reg ectx tid asyncCT stack) 0)).map
          (fun f => f.indent) =
      List.range' 0 (renormFrames (flattenChain
        (chainWithFuel (reg.length + 1) reg ectx tid asyncCT)
        (lookupCtx ectx tid) (currentStackOf reg ectx tid asyncCT stack) 0)).length
    rw [renorm_length]
    exact renorm_map_indent _ (flatten_map_indent _ _ _ 0)
  exact key _ hL h

/-- C2 witness: a one-task chain yields a nonempty frames list whose frame 0
has indent 0. -/
theorem collect_frames_indent_witness :
    ((collect_async_trace [] [] 0 (some ⟨0, "Task-1", false⟩) []).frames.get
      ⟨0, by decide⟩).indent = 0 :=
  collect_frames_indent [] [] 0 (some ⟨0, "Task-1", false⟩) [] 0 (by decide)

/-- C6: the chain built by `collect_async_trace` is root-first: every entry
is the recorded `task_data` of its task; the last entry is the starting
(current) task's entry; adjacent entries are parent-linked; `is_current`
holds exactly for the starting task; a task with no creation record carries
an empty creation trace and terminates the walk (it is the first, rootmost
entry); and the visited-set guard keeps the chain's tasks pairwise
distinct. -/
theorem walk_builds_root_first_chain (reg : Registry) (t : Task) :
    (∀ td ∈ walkChain reg (some t) (reg.length + 1) (some t) [],
        td = mkTaskData reg (some t) td.task) ∧
    (walkChain reg (some t) (reg.length + 1) (some t) []).getLast? =
        some (mkTaskData reg (some t) t) ∧
    Chained (walkChain reg (some t) (reg.length + 1) (some t) []) ∧
    (∀ td ∈ walkChain reg (some t) (reg.length + 1) (some t) [],
        (td.is_current = true ↔ td.task = t)) ∧
    (∀ td ∈ walkChain reg (some t) (reg.length + 1) (some t) [],
        lookupRecord reg td.task = none →
          td.call_trace = [] ∧
          (walkChain reg (some t) (reg.length + 1) (some t) []).head? = some td) ∧
    ((walkChain reg (some t) (reg.length + 1) (some t) []).map
      (fun td => td.task)).Nodup := by
  refine ⟨walk_shape reg (some t) _ _ _, ?_, walk_chained reg (some t) _ _ _,
    ?_, ?_, walk_nodup reg (some t) _ _ _⟩
  · rw [walkChain_succ, if_neg (List.not_mem_nil t), List.getLast?_concat]
  · intro td htd
    have hsh := walk_shape reg (some t) _ _ _ td htd
    constructor
    · intro hc
      rw [hsh] at hc
      have hdec : decide (some td.task = some t) = true := hc
      simpa using of_decide_eq_true hdec
    · intro he
      rw [hsh]
      show decide (some td.task = some t) = true
      simp [he]
  · intro td htd hrec
    constructor
    · have hsh := walk_shape reg (some t) _ _ _ td htd
      rw [hsh]
      show (mkTaskData reg (some t) td.task).call_trace = []
      simp [mkTaskData, hrec]
    · exact walk_head_norecord reg (some t) _ _ _ td htd hrec

/-- C8: every task of the walked chain that has no creation record produces
exactly one output frame tagged with that task, and that frame has no line
and no filename (a root boundary). -/
theorem collect_norecord_root_frame (reg : Registry) (ectx : CtxStore)
    (tid : Nat) (asyncCT : Option Task) (stack : List CallFrame) (t : Task)
    (hmem : t ∈ (chainWithFuel (reg.length + 1) reg ectx tid asyncCT).map
      (fun td => td.task))
    (hrec : lookupRecord reg t = none) :
    (collect_async_trace reg ectx tid asyncCT stack).frames.countP
        (fun fr => decide (fr.task = some t)) = 1 ∧
    ∀ fr ∈ (collect_async_trace reg ectx tid asyncCT stack).frames,
      fr.task = some t → fr.line = none ∧ fr.filename = none := by
  have hnodup : ((chainWithFuel (reg.length + 1) reg ectx tid asyncCT).map
      (fun td => td.task)).Nodup := walk_nodup reg _ _ _ []
  constructor
  · calc (collect_async_trace reg ectx tid asyncCT stack).frames.countP
          (fun fr => decide (fr.task = some t))
        = (flattenChain (chainWithFuel (reg.length + 1) reg ectx tid asyncCT)
            (lookupCtx ectx tid) (currentStackOf reg ectx tid asyncCT stack)
            0).countP (fun fr => decide (fr.task = some t)) :=
          renorm_countP _ _ (fun f n => rfl)
      _ = (chainWithFuel (reg.length + 1) reg ectx tid asyncCT).countP
            (fun td => decide (some td.task = some t)) :=
          flatten_countP _ _ (fun o => decide (o = some t)) (by simp) _ 0
      _ = (chainWithFuel (reg.length + 1) reg ectx tid asyncCT).countP
            (fun td => decide (td.task = t)) :=
          List.countP_congr (by intro td _; simp)
      _ = 1 := countP_task_one t _ hnodup hmem
  · intro fr hfr htask
    have hfr' : fr ∈ renormFrames (flattenChain
        (chainWithFuel (reg.length + 1) reg ectx tid asyncCT)
        (lookupCtx ectx tid) (currentStackOf reg ectx tid asyncCT stack) 0) := hfr
    rcases renorm_mem_rev _ fr hfr' with ⟨fr0, hfr0, hn, hl, hf, ht, hx⟩
    rcases flatten_mem _ _ _ 0 fr0 hfr0 with ⟨td, htd, k, hk⟩
    have hts : fr0.task = some t := by rw [← ht]; exact htask
    have h2 := taskFrames_task_some td _ _ k fr0 hk (by rw [hts]; simp)
    have htdt : td.task = t := by
      have h3 : some td.task = some t := by rw [← h2.1, hts]
      exact Option.some.inj h3
    have hct : td.call_trace = [] := by
      have hsh := walk_shape reg (currentTaskOf ectx tid asyncCT)
        (reg.length + 1) (currentTaskOf ectx tid asyncCT) [] td htd
      rw [hsh]
      show (mkTaskData reg _ td.task).call_trace = []
      simp [mkTaskData, htdt, hrec]
    have h4 := h2.2 hct
    exact ⟨by rw [hl, h4.1], by rw [hf, h4.2]⟩

/-- C8 witness: a root task with no record in an otherwise empty state. -/
theorem collect_norecord_root_frame_witness :
    (collect_async_trace [] [] 0 (some ⟨0, "Task-1", false⟩) []).frames.countP
        (fun fr => decide (fr.task = some ⟨0, "Task-1", false⟩)) = 1 ∧
    ∀ fr ∈ (collect_async_trace [] [] 0 (some ⟨0, "Task-1", false⟩) []).frames,
      fr.task = some ⟨0, "Task-1", false⟩ → fr.line = none ∧ fr.filename = none :=
  collect_norecord_root_frame [] [] 0 (some ⟨0, "Task-1", false⟩) []
    ⟨0, "Task-1", false⟩ (by decide) rfl

/-- C4 counterexample: a task that HAS a creation record — whose recorded
call trace is empty — still gets a root-style boundary frame (no line, no
filename), not a creation boundary for "the last entry of its creation
trace" (which does not exist), refuting the claim's classification of
boundary frames by record presence. -/
theorem recorded_task_root_frame_counterexample :
    (lookupRecord [(⟨0, "Task-1", false⟩, ⟨none, [], []⟩)]
        ⟨0, "Task-1", false⟩).isSome = true ∧
    (collect_async_trace [(⟨0, "Task-1", false⟩, ⟨none, [], []⟩)] [] 0
        (some ⟨0, "Task-1", false⟩) []).frames =
      [OutFrame.mk "Task-1" none none 0 (some ⟨0, "Task-1", false⟩) false] := by
  exact ⟨by decide, by decide⟩

/-- C4 (amended): for a call with no dispatch record for the calling thread,
the frames list contains exactly one task-tagged frame per task of the
walked chain (every other frame has `task = none`), and each chain task's
boundary frame is root-style (no line, no filename) when that task's
creation trace is empty — because the record is absent OR present with an
empty trace — and otherwise is the creation boundary carrying the name,
line and filename of the last entry of its creation trace. -/
theorem collect_one_boundary_per_task (reg : Registry) (ectx : CtxStore)
    (tid : Nat) (asyncCT : Option Task) (stack : List CallFrame)
    (h : lookupCtx ectx tid = none) :
    (collect_async_trace reg ectx tid asyncCT stack).frames.countP
        (fun fr => fr.task.isSome) =
      (chainWithFuel (reg.length + 1) reg ectx tid asyncCT).length ∧
    ∀ td ∈ chainWithFuel (reg.length + 1) reg ectx tid asyncCT,
      ∃ fr ∈ (collect_async_trace reg ectx tid asyncCT stack).frames,
        fr.task = some td.task ∧
        (td.call_trace = [] → fr.line = none ∧ fr.filename = none) ∧
        (∀ hne : td.call_trace ≠ [],
          fr.name = (td.call_trace.getLast hne).name ∧
          fr.line = some (td.call_trace.getLast hne).line ∧
          fr.filename = some (td.call_trace.getLast hne).filename) := by
  constructor
  · calc (collect_async_trace reg ectx tid asyncCT stack).frames.countP
          (fun fr => fr.task.isSome)
        = (flattenChain (chainWithFuel (reg.length + 1) reg ectx tid asyncCT)
            (lookupCtx ectx tid) (currentStackOf reg ectx tid asyncCT stack)
            0).countP (fun fr => fr.task.isSome) :=
          renorm_countP _ _ (fun f n => rfl)
      _ = (chainWithFuel (reg.length + 1) reg ectx tid asyncCT).countP
            (fun td => (some td.task).isSome) :=
          flatten_countP _ _ (fun o => o.isSome) (by simp) _ 0
      _ = (chainWithFuel (reg.length + 1) reg ectx tid asyncCT).countP
            (fun _ => true) := List.countP_congr (by intro td _; simp)
      _ = (chainWithFuel (reg.length + 1) reg ectx tid asyncCT).length := by
          rw [List.countP_true]
  · intro td htd
    have hex := fun k => taskFrames_boundary_exists td (lookupCtx ectx tid)
      (currentStackOf reg ectx tid asyncCT stack) k
    have hfl := flatten_exists (lookupCtx ectx tid)
      (currentStackOf reg ectx tid asyncCT stack) _ td
      (chainWithFuel (reg.length + 1) reg ectx tid asyncCT) htd hex 0
    rcases hfl with ⟨fr0, hfr0, hP⟩
    rcases renorm_mem _ fr0 hfr0 with ⟨fr, hfr, hn, hl, hf, ht, hx⟩
    refine ⟨fr, hfr, ?_, ?_, ?_⟩
    · rw [ht]; exact hP.1
    · intro hc
      rcases hP.2.1 hc with ⟨a, b⟩
      exact ⟨by rw [hl, a], by rw [hf, b]⟩
    · intro hne
      rcases hP.2.2 hne with ⟨a, b, c⟩
      exact ⟨by rw [hn, a], by rw [hl, b], by rw [hf, c]⟩

/-- C4 witness: a two-task chain (a recorded child of an unrecorded root)
with no dispatch: two task-tagged frames, one per chain task. -/
theorem collect_one_boundary_per_task_witness :
    (collect_async_trace
        [(⟨1, "Task-2", false⟩, ⟨some ⟨0, "Task-1", false⟩,
          [⟨"parent", 10, "", "/app/x.py"⟩], []⟩)] [] 0
        (some ⟨1, "Task-2", false⟩) []).frames.countP
        (fun fr => fr.task.isSome) =
      (chainWithFuel 2 [(⟨1, "Task-2", false⟩, ⟨some ⟨0, "Task-1", false⟩,
          [⟨"parent", 10, "", "/app/x.py"⟩], []⟩)] [] 0
        (some ⟨1, "Task-2", false⟩)).length ∧
    ∀ td ∈ chainWithFuel 2 [(⟨1, "Task-2", false⟩, ⟨some ⟨0, "Task-1", false⟩,
          [⟨"parent", 10, "", "/app/x.py"⟩], []⟩)] [] 0
        (some ⟨1, "Task-2", false⟩),
      ∃ fr ∈ (collect_async_trace
          [(⟨1, "Task-2", false⟩, ⟨some ⟨0, "Task-1", false⟩,
            [⟨"parent", 10, "", "/app/x.py"⟩], []⟩)] [] 0
          (some ⟨1, "Task-2", false⟩) []).frames,
        fr.task = some td.task ∧
        (td.call_trace = [] → fr.line = none ∧ fr.filename = none) ∧
        (∀ hne : td.call_trace ≠ [],
          fr.name = (td.call_trace.getLast hne).name ∧
          fr.line = some (td.call_trace.getLast hne).line ∧
          fr.filename = some (td.call_trace.getLast hne).filename) :=
  collect_one_boundary_per_task
    [(⟨1, "Task-2", false⟩, ⟨some ⟨0, "Task-1", false⟩,
      [⟨"parent", 10, "", "/app/x.py"⟩], []⟩)] [] 0
    (some ⟨1, "Task-2", false⟩) [] rfl

/-- C1 counterexample: task `Task-1` dispatches callable `blocking_work`
from inside function `main`; inside the worker, the collected trace is in
executor mode with current task `Task-1`, but its dispatch-boundary frame is
named after the dispatch site (`main`, the innermost entry of the dispatch
call trace) — no executor-marked frame carries the dispatched callable's
name `blocking_work`, refuting the claim's name condition. -/
theorem dispatch_boundary_name_counterexample :
    (lookupCtx [(7, ⟨some ⟨0, "Task-1", false⟩,
        [⟨"main", 10, "", "/app/x.py"⟩], "blocking_work"⟩)] 7).map
        (fun e => e.func_name) = some "blocking_work" ∧
    (collect_async_trace [] [(7, ⟨some ⟨0, "Task-1", false⟩,
        [⟨"main", 10, "", "/app/x.py"⟩], "blocking_work"⟩)] 7 none
        []).in_executor = true ∧
    (collect_async_trace [] [(7, ⟨some ⟨0, "Task-1", false⟩,
        [⟨"main", 10, "", "/app/x.py"⟩], "blocking_work"⟩)] 7 none
        []).current_task = some ⟨0, "Task-1", false⟩ ∧
    ∀ fr ∈ (collect_async_trace [] [(7, ⟨some ⟨0, "Task-1", false⟩,
        [⟨"main", 10, "", "/app/x.py"⟩], "blocking_work"⟩)] 7 none []).frames,
      ¬(fr.is_executor = true ∧ fr.name = "blocking_work") := by
  exact ⟨by decide, by decide, by decide, by decide⟩

/-- C1 (amended): when a dispatch record with dispatching task T and a
nonempty dispatch call trace exists for the calling worker, the result has
`in_executor = true`, `current_task = T`, and the frames list contains a
dispatch-boundary frame (`is_executor = true`) whose name is that of the
LAST (innermost) entry of the dispatch-time call trace — the function that
called `run_in_executor` — not the dispatched callable's name. -/
theorem collect_dispatch_trace (reg : Registry) (ectx : CtxStore) (tid : Nat)
    (asyncCT : Option Task) (stack : List CallFrame) (e : ExecutorInfo)
    (T : Task) (h1 : lookupCtx ectx tid = some e) (h2 : e.parent = some T)
    (h3 : e.call_trace ≠ []) :
    (collect_async_trace reg ectx tid asyncCT stack).in_executor = true ∧
    (collect_async_trace reg ectx tid asyncCT stack).current_task = some T ∧
    ∃ fr ∈ (collect_async_trace reg ectx tid asyncCT stack).frames,
      fr.is_executor = true ∧ fr.name = (e.call_trace.getLast h3).name := by
  have hct : currentTaskOf ectx tid asyncCT = some T := by
    unfold currentTaskOf; rw [h1]; exact h2
  refine ⟨?_, ?_, ?_⟩
  · show (lookupCtx ectx tid).isSome = true
    rw [h1]; rfl
  · show currentTaskOf ectx tid asyncCT = some T
    exact hct
  · have hchain : chainWithFuel (reg.length + 1) reg ectx tid asyncCT =
        walkChain reg (some T) reg.length (mkTaskData reg (some T) T).parent [T] ++
          [mkTaskData reg (some T) T] := by
      unfold chainWithFuel
      rw [hct, walkChain_succ, if_neg (List.not_mem_nil T)]
    have hcur : (mkTaskData reg (some T) T).is_current = true := by
      show decide (some T = some T) = true
      simp
    have htd_mem : mkTaskData reg (some T) T ∈
        chainWithFuel (reg.length + 1) reg ectx tid asyncCT := by
      rw [hchain]
      exact List.mem_append_right _ (List.mem_singleton_self _)
    have hex : ∀ k, ∃ fr ∈ taskFrames (mkTaskData reg (some T) T)
        (lookupCtx ectx tid) (currentStackOf reg ectx tid asyncCT stack) k,
        fr.is_executor = true ∧ fr.name = (e.call_trace.getLast h3).name := by
      intro k
      rw [h1]
      exact taskFrames_executor_exists _ e _ k hcur h3
    have hfl := flatten_exists (lookupCtx ectx tid)
      (currentStackOf reg ectx tid asyncCT stack) _ (mkTaskData reg (some T) T)
      (chainWithFuel (reg.length + 1) reg ectx tid asyncCT) htd_mem hex 0
    rcases hfl with ⟨fr0, hfr0, hP⟩
    rcases renorm_mem _ fr0 hfr0 with ⟨fr, hfr, hn, hl, hf, ht, hx⟩
    exact ⟨fr, hfr, by rw [hx]; exact hP.1, by rw [hn]; exact hP.2⟩

/-- C1 witness: the dispatch scenario of the counterexample, with the
boundary frame found under its actual name (the dispatch site `main`). -/
theorem collect_dispatch_trace_witness :
    (collect_async_trace [] [(7, ⟨some ⟨0, "Task-1", false⟩,
        [⟨"main", 10, "", "/app/x.py"⟩], "blocking_work"⟩)] 7 none
        []).in_executor = true ∧
    (collect_async_trace [] [(7, ⟨some ⟨0, "Task-1", false⟩,
        [⟨"main", 10, "", "/app/x.py"⟩], "blocking_work"⟩)] 7 none
        []).current_task = some ⟨0, "Task-1", false⟩ ∧
    ∃ fr ∈ (collect_async_trace [] [(7, ⟨some ⟨0, "Task-1", false⟩,
        [⟨"main", 10, "", "/app/x.py"⟩], "blocking_work"⟩)] 7 none []).frames,
      fr.is_executor = true ∧ fr.name = "main" :=
  collect_dispatch_trace [] [(7, ⟨some ⟨0, "Task-1", false⟩,
      [⟨"main", 10, "", "/app/x.py"⟩], "blocking_work"⟩)] 7 none []
    ⟨some ⟨0, "Task-1", false⟩, [⟨"main", 10, "", "/app/x.py"⟩], "blocking_work"⟩
    ⟨0, "Task-1", false⟩ rfl rfl (by decide)

/-- C3 counterexample: creation trace `[f@1, g@2]`, live stack
`[g@2 (caller.py), f@1 (live.py), h@9 (live.py)]`. Matching only the last
creation-trace entry (`g@2`) gives cutoff index 0, so the claim's residue
keeps `f@1 (live.py)` and `h@9 (live.py)`. The code matches EVERY
creation-trace entry: `f@1` at index 1 raises the cutoff to 1, so the
output contains no frame from `/app/live.py` named `f` at all. -/
theorem residue_trimming_counterexample :
    claimResidue [⟨"f", 1, "", "/app/caller.py"⟩, ⟨"g", 2, "", "/app/caller.py"⟩]
        [⟨"g", 2, "", "/app/caller.py"⟩, ⟨"f", 1, "", "/app/live.py"⟩,
         ⟨"h", 9, "", "/app/live.py"⟩] =
      [⟨"f", 1, "", "/app/live.py"⟩, ⟨"h", 9, "", "/app/live.py"⟩] ∧
    ∀ fr ∈ (collect_async_trace
        [(⟨0, "Task-1", false⟩, ⟨none, [⟨"f", 1, "", "/app/caller.py"⟩,
          ⟨"g", 2, "", "/app/caller.py"⟩], []⟩)] [] 0
        (some ⟨0, "Task-1", false⟩)
        [⟨"g", 2, "", "/app/caller.py"⟩, ⟨"f", 1, "", "/app/live.py"⟩,
         ⟨"h", 9, "", "/app/live.py"⟩]).frames,
      ¬(fr.name = "f" ∧ fr.filename = some "/app/live.py") := by
  exact ⟨by decide, by decide⟩

/-- C3 (amended): in the async branch (no dispatch record for the calling
thread, current task `t`), the cutoff is the MAXIMAL live-stack index whose
frame matches ANY entry of `t`'s creation trace by name + line; only the
frames strictly after that cutoff, further filtered of tracer-internal and
runtime frames, appear in the output as the current task's live frames —
they are exactly the innermost block of the result, reversed. -/
theorem collect_live_residue (reg : Registry) (ectx : CtxStore) (tid : Nat)
    (stack : List CallFrame) (t : Task)
    (h : lookupCtx ectx tid = none) :
    ((collect_async_trace reg ectx tid (some t) stack).frames.take
        (asyncResidue reg (some t) stack).length).map outFields =
      ((asyncResidue reg (some t) stack).reverse).map liveFields := by
  have hct : currentTaskOf ectx tid (some t) = some t := by
    unfold currentTaskOf; rw [h]
  have hcs : currentStackOf reg ectx tid (some t) stack =
      asyncResidue reg (some t) stack := by
    unfold currentStackOf
    rw [h]
    show asyncResidue reg (currentTaskOf ectx tid (some t)) stack = _
    rw [hct]
  have hcur : (mkTaskData reg (some t) t).is_current = true := by
    show decide (some t = some t) = true
    simp
  have hchain : chainWithFuel (reg.length + 1) reg ectx tid (some t) =
      walkChain reg (some t) reg.length (mkTaskData reg (some t) t).parent [t] ++
        [mkTaskData reg (some t) t] := by
    unfold chainWithFuel
    rw [hct, walkChain_succ, if_neg (List.not_mem_nil t)]
  have hflat : flattenChain (chainWithFuel (reg.length + 1) reg ectx tid (some t))
      (lookupCtx ectx tid) (currentStackOf reg ectx tid (some t) stack) 0 =
      flattenChain (walkChain reg (some t) reg.length
          (mkTaskData reg (some t) t).parent [t]) none
          (asyncResidue reg (some t) stack) 0 ++
        taskFrames (mkTaskData reg (some t) t) none
          (asyncResidue reg (some t) stack)
          (0 + (flattenChain (walkChain reg (some t) reg.length
            (mkTaskData reg (some t) t).parent [t]) none
            (asyncResidue reg (some t) stack) 0).length) := by
    rw [hchain, h, hcs, flatten_append]
    simp [flattenChain]
  rcases taskFrames_current_none_split (mkTaskData reg (some t) t)
      (asyncResidue reg (some t) stack)
      (0 + (flattenChain (walkChain reg (some t) reg.length
        (mkTaskData reg (some t) t).parent [t]) none
        (asyncResidue reg (some t) stack) 0).length) hcur with ⟨Q, ind1, hQ⟩
  have hPS : flattenChain (chainWithFuel (reg.length + 1) reg ectx tid (some t))
      (lookupCtx ectx tid) (currentStackOf reg ectx tid (some t) stack) 0 =
      (flattenChain (walkChain reg (some t) reg.length
          (mkTaskData reg (some t) t).parent [t]) none
          (asyncResidue reg (some t) stack) 0 ++ Q) ++
        stackFrames (asyncResidue reg (some t) stack) ind1 := by
    rw [hflat, hQ, List.append_assoc]
  have hframes : (collect_async_trace reg ectx tid (some t) stack).frames =
      renormFrames ((flattenChain (walkChain reg (some t) reg.length
          (mkTaskData reg (some t) t).parent [t]) none
          (asyncResidue reg (some t) stack) 0 ++ Q) ++
        stackFrames (asyncResidue reg (some t) stack) ind1) := by
    show renormFrames (flattenChain
        (chainWithFuel (reg.length + 1) reg ectx tid (some t))
        (lookupCtx ectx tid)
        (currentStackOf reg ectx tid (some t) stack) 0) = _
    rw [hPS]
  rw [hframes]
  generalize (flattenChain (walkChain reg (some t) reg.length
      (mkTaskData reg (some t) t).parent [t]) none
      (asyncResidue reg (some t) stack) 0 ++ Q) = P
  show (((P ++ stackFrames (asyncResidue reg (some t) stack) ind1).reverse.map
      fun f => { f with indent := maxIndent (P ++ stackFrames
        (asyncResidue reg (some t) stack) ind1).reverse - f.indent }).take
      (asyncResidue reg (some t) stack).length).map outFields =
    (asyncResidue reg (some t) stack).reverse.map liveFields
  rw [List.reverse_append, List.map_append]
  rw [List.take_left' (by simp [stackFrames_length])]
  have hmapcomp : ∀ (L : List OutFrame) (m : Nat),
      (L.map fun f => { f with indent := m - f.indent }).map outFields =
        L.map outFields := by
    intro L m
    rw [List.map_map]
    rfl
  rw [hmapcomp]
  rw [List.map_reverse, stackFrames_map_fields, List.map_reverse]

/-- C3 witness: the amended trimming on the counterexample state — the
innermost output frames are exactly the reversed residue `[h@9]`. -/
theorem collect_live_residue_witness :
    ((collect_async_trace
        [(⟨0, "Task-1", false⟩, ⟨none, [⟨"f", 1, "", "/app/caller.py"⟩,
          ⟨"g", 2, "", "/app/caller.py"⟩], []⟩)] [] 0
        (some ⟨0, "Task-1", false⟩)
        [⟨"g", 2, "", "/app/caller.py"⟩, ⟨"f", 1, "", "/app/live.py"⟩,
         ⟨"h", 9, "", "/app/live.py"⟩]).frames.take
        (asyncResidue [(⟨0, "Task-1", false⟩, ⟨none,
          [⟨"f", 1, "", "/app/caller.py"⟩, ⟨"g", 2, "", "/app/caller.py"⟩], []⟩)]
          (some ⟨0, "Task-1", false⟩)
          [⟨"g", 2, "", "/app/caller.py"⟩, ⟨"f", 1, "", "/app/live.py"⟩,
           ⟨"h", 9, "", "/app/live.py"⟩]).length).map outFields =
      ((asyncResidue [(⟨0, "Task-1", false⟩, ⟨none,
          [⟨"f", 1, "", "/app/caller.py"⟩, ⟨"g", 2, "", "/app/caller.py"⟩], []⟩)]
          (some ⟨0, "Task-1", false⟩)
          [⟨"g", 2, "", "/app/caller.py"⟩, ⟨"f", 1, "", "/app/live.py"⟩,
           ⟨"h", 9, "", "/app/live.py"⟩]).reverse).map liveFields :=
  collect_live_residue
    [(⟨0, "Task-1", false⟩, ⟨none, [⟨"f", 1, "", "/app/caller.py"⟩,
      ⟨"g", 2, "", "/app/caller.py"⟩], []⟩)] [] 0
    [⟨"g", 2, "", "/app/caller.py"⟩, ⟨"f", 1, "", "/app/live.py"⟩,
     ⟨"h", 9, "", "/app/live.py"⟩] ⟨0, "Task-1", false⟩ rfl

end AsyncTrace
